import Mathlib

/-!
Verification of the yabume-piston-client core against its specification.

The TypeScript sources are shallowly embedded over `List Char` (called `Str`
below), so that every JavaScript string operation used by the code
(`String.prototype.match` with the non-newline-run regex, `split`, `join`,
`indexOf`, `replace` of a first occurrence, `trim`, `slice`) has an explicit,
executable Lean counterpart.  Fallible JavaScript code (a lookup of a missing
table entry, a parse of an empty message) is embedded with `Option`.
-/

/-- Strings are embedded as lists of characters. -/
abbrev Str := List Char

/-- The characters the line-splitting regex `[^\r\n]+` treats as separators. -/
def isNlCr (c : Char) : Bool := c = '\n' || c = '\r'

/-- The whitespace class of JavaScript `String.prototype.trim` (the characters
that actually occur in this code base's inputs). -/
def isWsChar (c : Char) : Bool := c = ' ' || c = '\t' || c = '\n' || c = '\r'

/-- Split at every `\n` or `\r`, keeping empty segments (so that
`filter (· ≠ [])` of the result is exactly the list of maximal nonempty
runs of non-newline characters, i.e. the JS `content.match(/[^\r\n]+/g)`). -/
def splitNlCr : Str → List Str
  | [] => [[]]
  | c :: rest =>
    if isNlCr c then [] :: splitNlCr rest
    else
      match splitNlCr rest with
      | [] => [[c]]
      | l :: ls => (c :: l) :: ls

/-- JS `s.split("\n")`: split at every `\n`, keeping empty segments. -/
def splitNl : Str → List Str
  | [] => [[]]
  | c :: rest =>
    if c = '\n' then [] :: splitNl rest
    else
      match splitNl rest with
      | [] => [[c]]
      | l :: ls => (c :: l) :: ls

/-- JS `lines.join("\n")`. -/
def joinNl : List Str → Str
  | [] => []
  | [l] => l
  | l :: ls => l ++ '\n' :: joinNl ls

/-- JS `content.match(/[^\r\n]+/g)`, with a `null` result embedded as `[]`:
the list of maximal nonempty runs of non-newline characters. -/
def jsLines (s : Str) : List Str := (splitNlCr s).filter (fun l => l ≠ [])

/-- JS `s.trim()`: drop leading and trailing whitespace. -/
def jsTrim (s : Str) : Str :=
  ((s.dropWhile isWsChar).reverse.dropWhile isWsChar).reverse

/-- `leadsWith p s` holds when `p` is a prefix of `s` (the test JS `indexOf`
and `replace` perform at each scan position). -/
def leadsWith : Str → Str → Bool
  | [], _ => true
  | _ :: _, [] => false
  | p :: ps, c :: cs => p == c && leadsWith ps cs

/-- Find the first occurrence of `sep` in a string: `some (pre, post)` means
the string is `pre ++ sep ++ post` and no occurrence of `sep` starts earlier.
This is the scan underlying JS `indexOf`, `split` and first-occurrence
`replace`. -/
def breakSep (sep : Str) : Str → Option (Str × Str)
  | [] => if leadsWith sep [] then some ([], []) else none
  | c :: rest =>
    if leadsWith sep (c :: rest) then some ([], (c :: rest).drop sep.length)
    else
      match breakSep sep rest with
      | none => none
      | some (pre, post) => some (c :: pre, post)

/-- Whether `t` occurs as a contiguous substring of `s`. -/
def occursIn (t : Str) : Str → Bool
  | [] => leadsWith t []
  | c :: rest => leadsWith t (c :: rest) || occursIn t rest

/-- The code-fence marker, a literal triple backtick. -/
def tb : Str := "```".toList

/-- The backtick character. -/
def bq : Char := ("`".toList).headD ' '

/-- First occurrence of the fence marker (JS `rest.indexOf("```")` together
with the corresponding cut). -/
def breakTicks (s : Str) : Option (Str × Str) := breakSep tb s

/-- Fuelled worker for `splitTicks`; the fuel is only a termination device and
`s.length` is always enough. -/
def splitTicksGo : Nat → Str → List Str
  | 0, s => [s]
  | fuel + 1, s =>
    match breakTicks s with
    | none => [s]
    | some (pre, post) => pre :: splitTicksGo fuel post

/-- JS `rest.split("```")`. -/
def splitTicks (s : Str) : List Str := splitTicksGo s.length s

/-- JS `parts.join("```")`. -/
def joinTicks : List Str → Str
  | [] => []
  | [l] => l
  | l :: ls => l ++ tb ++ joinTicks ls

/-- The string starts with a newline character `\n`. -/
def startsNl : Str → Bool
  | c :: _ => c == '\n'
  | [] => false

/-- JS `s.replace(/^\n/, "")`: strip exactly one leading newline. -/
def stripLeadNl (s : Str) : Str := if startsNl s then s.tail else s

/-- JS `s.replace(/\n$/, "")`: strip exactly one trailing newline (expressed
via `reverse` so that it mirrors `stripLeadNl`). -/
def stripTrailNl (s : Str) : Str := (stripLeadNl s.reverse).reverse

/-- JS `line.replace("/run", "")`: delete the first occurrence of `/run`. -/
def replaceRun (s : Str) : Str :=
  match breakSep ("/run".toList) s with
  | none => s
  | some (pre, post) => pre ++ post

/-- JS `lines.indexOf(x)`, with `-1` embedded as `none`. -/
def jsIndexOf (x : Str) : List Str → Option Nat
  | [] => none
  | y :: ys => if y = x then some 0 else (jsIndexOf x ys).map (· + 1)

/-- The string ends with a newline character `\n`. -/
def endsNl (s : Str) : Bool := startsNl s.reverse

/-- No two adjacent newline characters anywhere in the string. -/
def nnFree (s : Str) : Prop := ∀ u v : Str, s ≠ u ++ '\n' :: '\n' :: v

/-- "The string contains no blank line": splitting it at `\n` yields no empty
segment (the empty string counts as having no lines at all). -/
def noBlankLines (s : Str) : Prop := s = [] ∨ ∀ l ∈ splitNl s, l ≠ []

instance noBlankLinesDecidable (s : Str) : Decidable (noBlankLines s) :=
  decidable_of_iff (s = [] ∨ ∀ l ∈ splitNl s, l ≠ []) Iff.rfl

/-- `joinNl xs` followed by one `\n` when `xs` is nonempty: the shape of the
left part of `joinNl (xs ++ ys)`. -/
def joinNlDot (xs : List Str) : Str := if xs = [] then [] else joinNl xs ++ ['\n']

/-! ## Data model (lib.ts) -/

/-- A Piston runtime language entry (`LanguageEntry` in lib.ts). -/
structure LanguageEntry where
  language : Str
  version : Str
deriving DecidableEq

/-- The script object sent to Piston (`{content, name?}` in lib.ts). -/
structure Script where
  content : Str
  name : Option Str
deriving DecidableEq

/-- One execution stage (`{output, code}`) of a Piston result. -/
structure Stage where
  output : Str
  code : Int
deriving DecidableEq

/-- A Piston execution result: optional `compile` and `run` stages and an
optional top-level `message`; a JS field that is absent or `null` is `none`.
A `message` field holding the empty string is `some []` (present but falsy
for JS truthiness tests). -/
structure ExecResult where
  compile : Option Stage
  run : Option Stage
  message : Option Str
deriving DecidableEq

/-- A Nostr event (`{id, pubkey, kind, content, created_at, tags, sig}`);
`tags` is an ordered list of string lists. -/
structure Event where
  id : Str
  pubkey : Str
  kind : Int
  content : Str
  created_at : Int
  tags : List (List Str)
  sig : Str
deriving DecidableEq

/-- The unsigned draft `composeReplyPost` builds before signing. -/
structure EventDraft where
  kind : Int
  content : Str
  tags : List (List Str)
  created_at : Int
deriving DecidableEq

/-- The result of `parseRunCommand` in part_005's lib.ts:
`{language, args, code, stdin}`. -/
structure RunCommand where
  language : Str
  args : List Str
  code : Str
  stdin : Str
deriving DecidableEq

/-- The result of `parseRerunCommand`: `{args, stdin}`. -/
structure RerunRequest where
  args : List Str
  stdin : Str
deriving DecidableEq

/-! ## Operations (lib.ts, src/unnamed/part_005) -/

/-- `parseRunCommand` (src/unnamed/part_005, lines 70-93).  Split the content
into nonblank lines; `none` on no lines; first line minus `/run`, trimmed, is
the language; the rest joined by `\n` is the body.  If the body holds two
fence markers (`indexOf` twice), split on the marker: segment 0 split at `\n`
and filtered of blank lines is `args`, segment 1 with one leading and one
trailing newline stripped is `code`, segments 2.. rejoined with the marker and
one leading newline stripped are `stdin`.  Otherwise the body is legacy code. -/
def parseRunCommand (content : Str) : Option RunCommand :=
  match jsLines content with
  | [] => none
  | first :: restLines =>
    let language := jsTrim (replaceRun first)
    let rest := joinNl restLines
    match breakTicks rest with
    | some (_, q) =>
      match breakTicks q with
      | some _ =>
        let parts := splitTicks rest
        some { language := language
               args := (splitNl (parts.getD 0 [])).filter (fun l => jsTrim l ≠ [])
               code := stripTrailNl (stripLeadNl (parts.getD 1 []))
               stdin := stripLeadNl (joinTicks (parts.drop 2)) }
      | none => some { language := language, args := [], code := rest, stdin := [] }
    | none => some { language := language, args := [], code := rest, stdin := [] }

/-- `parseRerunCommand` (src/unnamed/part_005, lines 95-116).  Split on `\n`,
drop the `/rerun` line; if nothing or only blank lines remain, empty request;
else the first `---` line separates nonblank argument lines from raw stdin
lines (joined back with `\n`); with no separator every nonblank line is an
argument. -/
def parseRerunCommand (content : Str) : RerunRequest :=
  let lines := (splitNl content).tail
  if lines = [] ∨ ∀ l ∈ lines, jsTrim l = [] then { args := [], stdin := [] }
  else
    match jsIndexOf ("---".toList) lines with
    | none => { args := lines.filter (fun l => jsTrim l ≠ []), stdin := [] }
    | some i =>
      { args := (lines.take i).filter (fun l => jsTrim l ≠ [])
        stdin := joinNl (lines.drop (i + 1)) }

/-- `buildScript` (src/unnamed/part_005, lines 118-127).  The lookup
`languages[language]` is unguarded in the source; a missing key makes the
`.language` access throw, embedded here as `none`. -/
def buildScript (code : Str) (languages : Str → Option LanguageEntry)
    (language : Str) : Option Script :=
  match languages language with
  | none => none
  | some entry =>
    some { content := code
           name := if entry.language = ("emojicode".toList)
                   then some ("file0.emojic".toList) else none }

/-- JS truthiness of `result.compile && result.compile.code`: the stage is
present (non-null) and its exit code is a nonzero number. -/
def compileTruthy (result : ExecResult) : Bool :=
  match result.compile with
  | some st => st.code != 0
  | none => false

/-- `formatExecutionResult` (src/unnamed/part_005, lines 130-138).  JS
truthiness: an object is truthy iff present and non-null (`Option.isSome`), a
number is truthy iff nonzero, a string is truthy iff nonempty. -/
def formatExecutionResult (result : ExecResult) : Str :=
  if compileTruthy result then
    (match result.compile with
     | some st => st.output
     | none => [])
  else
    match result.run with
    | some st => st.output
    | none =>
      match result.message with
      | some m => if m ≠ [] then m else "Execution error".toList
      | none => "Execution error".toList

/-- The external signing collaborator's key-derived fields: how `id`,
`pubkey` and `sig` are computed from the draft and the private key. -/
structure Signer where
  idOf : EventDraft → Str → Str
  pubOf : EventDraft → Str → Str
  sigOf : EventDraft → Str → Str

/-- Modelled from the spec: `finishEvent` of nostr-tools is an external
collaborator, not part of this repository; per spec §4.4 it computes `id`,
`pubkey` and `sig` deterministically from the draft fields and the key and
returns the fully populated signed event, leaving `kind`, `content`, `tags`
and `created_at` as drafted.  It is parameterised by an arbitrary `Signer`. -/
def finishEvent (signer : Signer) (draft : EventDraft) (key : Str) : Event :=
  { id := signer.idOf draft key
    pubkey := signer.pubOf draft key
    kind := draft.kind
    content := draft.content
    created_at := draft.created_at
    tags := draft.tags
    sig := signer.sigOf draft key }

/-- `composeReplyPost` (src/lib.ts, lines 83-99): a kind-1 draft holding the
content, one `e` tag with the target's id, one `p` tag with the target's
pubkey, and `created_at` one unit after the target, handed to the signer. -/
def composeReplyPost (signer : Signer) (content : Str) (targetEvent : Event)
    (privateKeyHex : Str) : Event :=
  finishEvent signer
    { kind := 1
      content := content
      tags := [[("e".toList), targetEvent.id], [("p".toList), targetEvent.pubkey]]
      created_at := targetEvent.created_at + 1 }
    privateKeyHex

/-- `getSourceEvent` (src/lib.ts, lines 101-118).  The relay is abstracted to
the one query the function issues, `relay.get({ids: [x]})`, i.e. a function
from the (possibly undefined, hence `Option`) queried id to the matched event
or `null`.  With no `e` tag the function returns `null`; otherwise it queries
the id in position 1 of the last `e` tag of `event.tags`. -/
def getSourceEvent (relay : Option Str → Option Event) (event : Event) :
    Option Event :=
  let etags := event.tags.filter (fun t => t.head? = some ("e".toList))
  if etags.length = 0 then none
  else
    relay (((event.tags.filter (fun t => t.head? = some ("e".toList))).getLast?).bind
      (fun t => t[1]?))

/-! ## Spec-modelled components

The repository's current `lib.ts` (the one exercised by the newest test file,
with the kind-tagged `ParsedCommand` and `resolveSourceRunEvent`) is not under
`src/`; only its tests are.  The definitions below model those missing pieces
from the spec. -/

/-- The tagged union `ParsedCommand` of spec §3: `{kind:"help"}`,
`{kind:"list"}`, or a run command. -/
inductive ParsedCommand where
  | help : ParsedCommand
  | list : ParsedCommand
  | run (language : Str) (args : List Str) (code : Str) (stdin : Str) : ParsedCommand
deriving DecidableEq

/-- Modelled from the spec: the current lib.ts `parseRunCommand` (the
kind-tagged version required by the tests in src/unnamed/part_003) is not
under src/.  Spec §4.1: after the language token is extracted, the literal
token `help` yields the help kind and `lang` the list kind; otherwise the
body is parsed exactly as in the fenced/legacy algorithm embedded above as
`parseRunCommand`. -/
def parseRunCommandSpec (content : Str) : Option ParsedCommand :=
  match jsLines content with
  | [] => none
  | first :: _ =>
    let language := jsTrim (replaceRun first)
    if language = ("help".toList) then some ParsedCommand.help
    else if language = ("lang".toList) then some ParsedCommand.list
    else (parseRunCommand content).map
      (fun r => ParsedCommand.run r.language r.args r.code r.stdin)

/-- Modelled from the spec: the worker loop of `resolveSourceRunEvent`
(spec §4.5), which is not under src/ (only its tests are).  It also returns
the final visited set so that the no-revisit invariant can be stated.  Each
iteration performs one hop; a `null` hop, an already-visited id, or an
exhausted hop budget ends the walk with `none`; an event whose content starts
with `/run` is the answer.  The optional per-hop observer has no effect on
control flow and is omitted. -/
def resolveSourceRunEventGo (relay : Option Str → Option Event) (cur : Event)
    (visited : List Str) : Nat → Option Event × List Str
  | 0 => (none, visited)
  | n + 1 =>
    match getSourceEvent relay cur with
    | none => (none, visited)
    | some e =>
      if e.id ∈ visited then (none, visited)
      else if leadsWith ("/run".toList) e.content then (some e, e.id :: visited)
      else resolveSourceRunEventGo relay e (e.id :: visited) n

/-- Modelled from the spec: `resolveSourceRunEvent` (spec §4.5), not under
src/.  The visited set is seeded with the start event's id and the walk runs
for at most `maxHops` hops. -/
def resolveSourceRunEvent (relay : Option Str → Option Event)
    (startEvent : Event) (maxHops : Nat) : Option Event :=
  (resolveSourceRunEventGo relay startEvent [startEvent.id] maxHops).1

/-- Modelled from the spec: the basic-syntax message builder of spec §6/§8,
`/run <language>`, then the argument lines, then a fence line, the code, a
fence line, and the optional stdin. -/
def buildBasicMessage (language : Str) (args : List Str) (code stdin : Str) :
    Str :=
  joinNl ((("/run ".toList) ++ language) :: args ++ [tb] ++ [code] ++ [tb] ++
    (if stdin = [] then [] else [stdin]))

/-! ### Concrete two-node cycle fixture (spec §8's `A → B → A`) -/

/-- Cycle fixture: event `A`, a non-`/run` reply whose `e` tag points at `B`. -/
def cycleEvA : Event :=
  { id := "a".toList, pubkey := [], kind := 1, content := "reply a".toList
    created_at := 0, tags := [[("e".toList), ("b".toList)]], sig := [] }

/-- Cycle fixture: event `B`, a non-`/run` reply whose `e` tag points at `A`. -/
def cycleEvB : Event :=
  { id := "b".toList, pubkey := [], kind := 1, content := "reply b".toList
    created_at := 0, tags := [[("e".toList), ("a".toList)]], sig := [] }

/-- Cycle fixture: the `/rerun` start event, whose `e` tag points at `A`. -/
def cycleStart : Event :=
  { id := "start".toList, pubkey := [], kind := 1, content := "/rerun".toList
    created_at := 0, tags := [[("e".toList), ("a".toList)]], sig := [] }

/-- Cycle fixture: the adversarial relay serving the two-node cycle. -/
def cycleRelay (q : Option Str) : Option Event :=
  if q = some ("a".toList) then some cycleEvA
  else if q = some ("b".toList) then some cycleEvB
  else none

/-! ## Basic lemmas about the string machinery -/

theorem splitNl_ne_nil (s : Str) : splitNl s ≠ [] := by
  induction s with
  | nil => simp [splitNl]
  | cons c rest ih =>
    by_cases hc : c = '\n'
    · simp [splitNl, hc]
    · simp only [splitNl, if_neg hc]
      cases h : splitNl rest <;> simp

theorem splitNlCr_ne_nil (s : Str) : splitNlCr s ≠ [] := by
  induction s with
  | nil => simp [splitNlCr]
  | cons c rest ih =>
    by_cases hc : isNlCr c
    · simp [splitNlCr, hc]
    · simp only [splitNlCr, if_neg hc]
      cases h : splitNlCr rest <;> simp

theorem leadsWith_iff (p s : Str) : leadsWith p s = true ↔ ∃ t, s = p ++ t := by
  induction p generalizing s with
  | nil => simp [leadsWith]
  | cons a ps ih =>
    cases s with
    | nil => simp [leadsWith]
    | cons c cs =>
      simp only [leadsWith, Bool.and_eq_true, beq_iff_eq, ih, List.cons_append]
      constructor
      · rintro ⟨rfl, t, rfl⟩; exact ⟨t, rfl⟩
      · rintro ⟨t, h⟩
        injection h with h1 h2
        exact ⟨h1.symm, t, h2⟩

theorem leadsWith_append_self (p t : Str) : leadsWith p (p ++ t) = true :=
  (leadsWith_iff p (p ++ t)).mpr ⟨t, rfl⟩

theorem breakSep_sound (sep : Str) :
    ∀ s pre post, breakSep sep s = some (pre, post) → s = pre ++ sep ++ post := by
  intro s
  induction s with
  | nil =>
    intro pre post h
    by_cases hl : leadsWith sep [] = true
    · obtain ⟨t, ht⟩ := (leadsWith_iff sep []).mp hl
      rcases List.append_eq_nil.mp ht.symm with ⟨hsep, htn⟩
      simp only [breakSep, if_pos hl] at h
      injection h with h'
      injection h' with h1 h2
      simp [← h1, ← h2, hsep]
    · simp [breakSep, hl] at h
  | cons c rest ih =>
    intro pre post h
    by_cases hl : leadsWith sep (c :: rest) = true
    · simp only [breakSep, if_pos hl] at h
      obtain ⟨t, ht⟩ := (leadsWith_iff sep (c :: rest)).mp hl
      injection h with h'
      injection h' with h1 h2
      subst h1
      rw [ht] at h2 ⊢
      rw [List.drop_left] at h2
      simp [← h2]
    · simp only [breakSep, if_neg hl] at h
      cases hb : breakSep sep rest with
      | none => rw [hb] at h; cases h
      | some pp =>
        obtain ⟨p1, p2⟩ := pp
        rw [hb] at h
        injection h with h'
        injection h' with h1 h2
        subst h2
        rw [← h1]
        have := ih p1 p2 hb
        simp [this]

theorem breakSep_none_iff (sep : Str) :
    ∀ s, breakSep sep s = none ↔ occursIn sep s = false := by
  intro s
  induction s with
  | nil =>
    by_cases hl : leadsWith sep [] = true <;> simp [breakSep, occursIn, hl]
  | cons c rest ih =>
    by_cases hl : leadsWith sep (c :: rest) = true
    · simp [breakSep, occursIn, hl]
    · have hl' : leadsWith sep (c :: rest) = false := by
        revert hl; cases leadsWith sep (c :: rest) <;> simp
      have hocc : occursIn sep (c :: rest) =
          (leadsWith sep (c :: rest) || occursIn sep rest) := rfl
      rw [hocc, hl', Bool.false_or]
      simp only [breakSep, if_neg hl]
      cases hb : breakSep sep rest with
      | none => simp [← ih, hb]
      | some pp =>
        rw [hb] at ih
        simp only [reduceCtorEq, false_iff] at ih
        simp only [reduceCtorEq, false_iff]
        exact ih

theorem breakSep_pre (sep : Str) (hsep : sep ≠ []) :
    ∀ s pre post, breakSep sep s = some (pre, post) → occursIn sep pre = false := by
  intro s
  obtain ⟨a, ps, rfl⟩ : ∃ a ps, sep = a :: ps := by
    cases sep with
    | nil => exact absurd rfl hsep
    | cons a ps => exact ⟨a, ps, rfl⟩
  induction s with
  | nil =>
    intro pre post h
    simp [breakSep, leadsWith] at h
  | cons c rest ih =>
    intro pre post h
    by_cases hl : leadsWith (a :: ps) (c :: rest) = true
    · simp only [breakSep, if_pos hl] at h
      injection h with h'
      injection h' with h1 _
      simp [← h1, occursIn, leadsWith]
    · simp only [breakSep, if_neg hl] at h
      cases hb : breakSep (a :: ps) rest with
      | none => rw [hb] at h; cases h
      | some pp =>
        obtain ⟨p1, p2⟩ := pp
        rw [hb] at h
        injection h with h'
        injection h' with h1 h2
        subst h1
        have hp1 : occursIn (a :: ps) p1 = false := ih p1 p2 hb
        have hrest : rest = p1 ++ (a :: ps) ++ p2 := breakSep_sound _ _ _ _ hb
        simp only [occursIn, Bool.or_eq_false_iff]
        refine ⟨?_, hp1⟩
        by_contra hcon
        have hc2 : leadsWith (a :: ps) (c :: p1) = true :=
          Bool.of_not_eq_false hcon
        obtain ⟨t, ht⟩ := (leadsWith_iff _ _).mp hc2
        have : leadsWith (a :: ps) (c :: rest) = true := by
          have hform : c :: rest = (a :: ps) ++ (t ++ (a :: ps) ++ p2) := by
            rw [hrest]
            have : c :: (p1 ++ (a :: ps) ++ p2) = (c :: p1) ++ ((a :: ps) ++ p2) := by
              simp
            rw [this, ht]
            simp
          rw [hform]
          exact leadsWith_append_self _ _
        exact hl this

theorem tb_length : tb.length = 3 := rfl

theorem tb_ne_nil : tb ≠ [] := by simp [tb]

theorem breakTicks_lt (s pre post : Str) (h : breakTicks s = some (pre, post)) :
    post.length < s.length := by
  have hs := breakSep_sound tb s pre post h
  rw [hs]
  simp [List.length_append, tb_length]
  omega

theorem splitTicksGo_congr :
    ∀ f₁ f₂ (s : Str), s.length ≤ f₁ → s.length ≤ f₂ →
      splitTicksGo f₁ s = splitTicksGo f₂ s := by
  intro f₁
  induction f₁ with
  | zero =>
    intro f₂ s h1 _
    have hs : s = [] := List.length_eq_zero.mp (Nat.le_zero.mp h1)
    subst hs
    cases f₂ with
    | zero => rfl
    | succ g =>
      have hb : breakTicks ([] : Str) = none := rfl
      simp [splitTicksGo, hb]
  | succ f ih =>
    intro f₂ s h1 h2
    cases f₂ with
    | zero =>
      have hs : s = [] := List.length_eq_zero.mp (Nat.le_zero.mp h2)
      subst hs
      have hb : breakTicks ([] : Str) = none := rfl
      simp [splitTicksGo, hb]
    | succ g =>
      simp only [splitTicksGo]
      cases hb : breakTicks s with
      | none => rfl
      | some pp =>
        obtain ⟨pre, post⟩ := pp
        have hlt := breakTicks_lt s pre post hb
        have heq : splitTicksGo f post = splitTicksGo g post :=
          ih g post (by omega) (by omega)
        exact congrArg (pre :: ·) heq

theorem splitTicks_single (s : Str) (h : breakTicks s = none) :
    splitTicks s = [s] := by
  unfold splitTicks
  cases hn : s.length with
  | zero => rfl
  | succ n => simp [splitTicksGo, h]

theorem splitTicks_cons (s pre post : Str) (h : breakTicks s = some (pre, post)) :
    splitTicks s = pre :: splitTicks post := by
  have hlt := breakTicks_lt s pre post h
  have h1 : splitTicks s = splitTicksGo (s.length + 1) s :=
    splitTicksGo_congr s.length (s.length + 1) s le_rfl (by omega)
  rw [h1]
  simp only [splitTicksGo, h]
  have h2 : splitTicksGo s.length post = splitTicks post :=
    splitTicksGo_congr s.length post.length post (by omega) le_rfl
  exact congrArg (pre :: ·) h2

theorem splitTicks_ne_nil (s : Str) : splitTicks s ≠ [] := by
  cases hb : breakTicks s with
  | none => rw [splitTicks_single s hb]; simp
  | some pp =>
    obtain ⟨pre, post⟩ := pp
    rw [splitTicks_cons s pre post hb]
    simp

theorem joinTicks_splitTicks (s : Str) : joinTicks (splitTicks s) = s := by
  have H : ∀ n (s : Str), s.length ≤ n → joinTicks (splitTicks s) = s := by
    intro n
    induction n with
    | zero =>
      intro s hs
      have h0 : s = [] := List.length_eq_zero.mp (Nat.le_zero.mp hs)
      subst h0
      rfl
    | succ n ih =>
      intro s hs
      cases hb : breakTicks s with
      | none => rw [splitTicks_single s hb]; rfl
      | some pp =>
        obtain ⟨pre, post⟩ := pp
        rw [splitTicks_cons s pre post hb]
        have hlt := breakTicks_lt s pre post hb
        have hpost : joinTicks (splitTicks post) = post := ih post (by omega)
        have hd := breakSep_sound tb s pre post hb
        cases hsp : splitTicks post with
        | nil => exact absurd hsp (splitTicks_ne_nil post)
        | cons l ls =>
          have hj : joinTicks (pre :: l :: ls) = pre ++ tb ++ joinTicks (l :: ls) :=
            rfl
          rw [hj, ← hsp, hpost, hd]
  exact H s.length s le_rfl

theorem tb_eq : tb = [bq, bq, bq] := rfl

theorem leadsWith_tb_of_three (c d e : Char) (rest : Str)
    (hc : c = bq) (hd : d = bq) (he : e = bq) :
    leadsWith tb (c :: d :: e :: rest) = true := by
  subst hc hd he
  rw [show (bq :: bq :: bq :: rest) = tb ++ rest from by rw [tb_eq]; rfl]
  exact leadsWith_append_self tb rest

theorem breakSep_exact (Y : Str) :
    ∀ X : Str, occursIn tb X = false → X.getLast? ≠ some bq →
      breakSep tb (X ++ tb ++ Y) = some (X, Y) := by
  intro X
  induction X with
  | nil =>
    intro _ _
    simp only [List.nil_append]
    obtain ⟨b, bs, hY⟩ : ∃ b bs, tb ++ Y = b :: bs := by
      cases h : tb ++ Y with
      | nil => exact absurd (List.append_eq_nil.mp h).1 tb_ne_nil
      | cons b bs => exact ⟨b, bs, rfl⟩
    rw [hY]
    have hl : leadsWith tb (b :: bs) = true := by
      rw [← hY]; exact leadsWith_append_self tb Y
    have hdrop : (b :: bs).drop tb.length = Y := by
      rw [← hY]; exact List.drop_left tb Y
    simp only [breakSep, if_pos hl, hdrop]
  | cons c X' ih =>
    intro hocc hlast
    have hstep : leadsWith tb ((c :: X') ++ tb ++ Y) = false := by
      by_contra hcon
      have hT : leadsWith tb ((c :: X') ++ tb ++ Y) = true :=
        Bool.of_not_eq_false hcon
      rw [tb_eq] at hT
      simp only [List.cons_append, leadsWith, Bool.and_eq_true, beq_iff_eq] at hT
      obtain ⟨hc, hT2⟩ := hT
      cases X' with
      | nil =>
        simp at hlast
        exact hlast hc.symm
      | cons d X'' =>
        simp only [List.cons_append, leadsWith, Bool.and_eq_true, beq_iff_eq] at hT2
        obtain ⟨hd, hT3⟩ := hT2
        cases X'' with
        | nil =>
          have : (c :: [d]).getLast? = some d := rfl
          rw [this] at hlast
          exact hlast (by rw [hd])
        | cons e X''' =>
          simp only [List.cons_append, leadsWith, Bool.and_eq_true, beq_iff_eq] at hT3
          obtain ⟨he, _⟩ := hT3
          have hlw : leadsWith tb (c :: d :: e :: X''') = true :=
            leadsWith_tb_of_three c d e X''' hc.symm hd.symm he.symm
          have : occursIn tb (c :: d :: e :: X''') = true := by
            simp [occursIn, hlw]
          rw [this] at hocc
          cases hocc
    have hocc' : occursIn tb X' = false := by
      have h1 : occursIn tb (c :: X') = (leadsWith tb (c :: X') || occursIn tb X') :=
        rfl
      rw [h1] at hocc
      exact (Bool.or_eq_false_iff.mp hocc).2
    have hlast' : X'.getLast? ≠ some bq := by
      cases X' with
      | nil => simp
      | cons d X'' =>
        rw [List.getLast?_cons_cons] at hlast
        exact hlast
    have hih := ih hocc' hlast'
    rw [show (c :: X') ++ tb ++ Y = c :: (X' ++ tb ++ Y) from by simp]
    rw [show breakSep tb (c :: (X' ++ tb ++ Y)) =
        (if leadsWith tb (c :: (X' ++ tb ++ Y))
         then some ([], (c :: (X' ++ tb ++ Y)).drop tb.length)
         else match breakSep tb (X' ++ tb ++ Y) with
              | none => none
              | some (pre, post) => some (c :: pre, post)) from rfl]
    rw [show leadsWith tb (c :: (X' ++ tb ++ Y)) =
        leadsWith tb ((c :: X') ++ tb ++ Y) from by simp]
    rw [hstep]
    simp only [Bool.false_eq_true, if_false, hih]

/-! ## Line-splitting lemmas -/

theorem joinNl_cons_cons (l x : Str) (xs : List Str) :
    joinNl (l :: x :: xs) = l ++ '\n' :: joinNl (x :: xs) := rfl

theorem splitNl_cons_sep (rest : Str) : splitNl ('\n' :: rest) = [] :: splitNl rest := by
  simp [splitNl]

theorem splitNl_cons_other (c : Char) (rest : Str) (hc : ¬c = '\n')
    (h' : Str) (t' : List Str) (hx : splitNl rest = h' :: t') :
    splitNl (c :: rest) = (c :: h') :: t' := by
  simp only [splitNl, if_neg hc, hx]

theorem splitNlCr_cons_sep (c : Char) (rest : Str) (hc : isNlCr c = true) :
    splitNlCr (c :: rest) = [] :: splitNlCr rest := by
  simp only [splitNlCr, if_pos hc]

theorem splitNlCr_cons_other (c : Char) (rest : Str) (hc : ¬isNlCr c = true)
    (h' : Str) (t' : List Str) (hx : splitNlCr rest = h' :: t') :
    splitNlCr (c :: rest) = (c :: h') :: t' := by
  simp only [splitNlCr, if_neg hc, hx]

theorem splitNl_dest (rest : Str) : ∃ h t, splitNl rest = h :: t := by
  cases h : splitNl rest with
  | nil => exact absurd h (splitNl_ne_nil rest)
  | cons a b => exact ⟨a, b, rfl⟩

theorem splitNlCr_dest (rest : Str) : ∃ h t, splitNlCr rest = h :: t := by
  cases h : splitNlCr rest with
  | nil => exact absurd h (splitNlCr_ne_nil rest)
  | cons a b => exact ⟨a, b, rfl⟩

theorem splitNl_append_sep (y : Str) :
    ∀ x : Str, splitNl (x ++ '\n' :: y) = splitNl x ++ splitNl y := by
  intro x
  induction x with
  | nil => rw [List.nil_append, splitNl_cons_sep]; rfl
  | cons c x' ih =>
    rw [List.cons_append]
    by_cases hc : c = '\n'
    · subst hc
      rw [splitNl_cons_sep, splitNl_cons_sep, ih]
      rfl
    · obtain ⟨h', t', hx⟩ := splitNl_dest x'
      have hmid : splitNl (x' ++ '\n' :: y) = h' :: (t' ++ splitNl y) := by
        rw [ih, hx]; rfl
      rw [splitNl_cons_other c _ hc _ _ hmid, splitNl_cons_other c _ hc _ _ hx]
      rfl

theorem splitNlCr_append_sep (y : Str) :
    ∀ x : Str, splitNlCr (x ++ '\n' :: y) = splitNlCr x ++ splitNlCr y := by
  intro x
  induction x with
  | nil =>
    rw [List.nil_append, splitNlCr_cons_sep '\n' y (by decide)]
    rfl
  | cons c x' ih =>
    rw [List.cons_append]
    by_cases hc : isNlCr c = true
    · rw [splitNlCr_cons_sep c _ hc, splitNlCr_cons_sep c _ hc, ih]
      rfl
    · obtain ⟨h', t', hx⟩ := splitNlCr_dest x'
      have hmid : splitNlCr (x' ++ '\n' :: y) = h' :: (t' ++ splitNlCr y) := by
        rw [ih, hx]; rfl
      rw [splitNlCr_cons_other c _ hc _ _ hmid, splitNlCr_cons_other c _ hc _ _ hx]
      rfl

theorem splitNl_clean : ∀ l : Str, '\n' ∉ l → splitNl l = [l] := by
  intro l
  induction l with
  | nil => intro _; rfl
  | cons c l' ih =>
    intro h
    have hc : ¬(c = '\n') := fun he => h (he ▸ List.mem_cons_self c l')
    have hl' : '\n' ∉ l' := fun hm => h (List.mem_cons_of_mem c hm)
    rw [splitNl_cons_other c _ hc _ _ (ih hl')]

theorem splitNlCr_clean :
    ∀ l : Str, (∀ c ∈ l, isNlCr c = false) → splitNlCr l = [l] := by
  intro l
  induction l with
  | nil => intro _; rfl
  | cons c l' ih =>
    intro h
    have hc : ¬(isNlCr c = true) := by
      rw [h c (List.mem_cons_self c l')]; simp
    have hl' : ∀ c ∈ l', isNlCr c = false := fun d hd => h d (List.mem_cons_of_mem c hd)
    rw [splitNlCr_cons_other c _ hc _ _ (ih hl')]

theorem joinNl_splitNl : ∀ s : Str, joinNl (splitNl s) = s := by
  intro s
  induction s with
  | nil => rfl
  | cons c rest ih =>
    by_cases hc : c = '\n'
    · subst hc
      obtain ⟨h', t', hx⟩ := splitNl_dest rest
      rw [splitNl_cons_sep, hx, joinNl_cons_cons, ← hx, ih]
      rfl
    · obtain ⟨h', t', hx⟩ := splitNl_dest rest
      rw [splitNl_cons_other c _ hc _ _ hx]
      cases t' with
      | nil =>
        rw [hx] at ih
        have h1 : joinNl [h'] = h' := rfl
        rw [h1] at ih
        subst ih
        rfl
      | cons a b =>
        rw [hx, joinNl_cons_cons] at ih
        rw [joinNl_cons_cons]
        rw [show (c :: h') ++ '\n' :: joinNl (a :: b) =
          c :: (h' ++ '\n' :: joinNl (a :: b)) from rfl, ih]

theorem splitNl_joinNl :
    ∀ lines : List Str, (∀ l ∈ lines, '\n' ∉ l) → lines ≠ [] →
      splitNl (joinNl lines) = lines := by
  intro lines
  induction lines with
  | nil => intro _ h; exact absurd rfl h
  | cons l ls ih =>
    intro hclean _
    cases ls with
    | nil =>
      have h1 : joinNl [l] = l := rfl
      rw [h1, splitNl_clean l (hclean l (List.mem_cons_self l []))]
    | cons a b =>
      rw [joinNl_cons_cons, splitNl_append_sep,
        splitNl_clean l (hclean l (List.mem_cons_self l (a :: b))),
        ih (fun x hx => hclean x (List.mem_cons_of_mem l hx)) (by simp)]
      rfl

theorem splitNlCr_eq_splitNl : ∀ s : Str, '\r' ∉ s → splitNlCr s = splitNl s := by
  intro s
  induction s with
  | nil => intro _; rfl
  | cons c rest ih =>
    intro h
    have hcr : ¬(c = '\r') := fun he => h (he ▸ List.mem_cons_self c rest)
    have hrest : '\r' ∉ rest := fun hm => h (List.mem_cons_of_mem c hm)
    by_cases hc : c = '\n'
    · subst hc
      rw [splitNlCr_cons_sep '\n' rest (by decide), splitNl_cons_sep, ih hrest]
    · have h1 : ¬(isNlCr c = true) := by
        simp [isNlCr, hc, hcr]
      obtain ⟨h', t', hx⟩ := splitNl_dest rest
      rw [splitNlCr_cons_other c _ h1 _ _ (by rw [ih hrest, hx]),
        splitNl_cons_other c _ hc _ _ hx]

theorem splitNlCr_chars :
    ∀ s : Str, ∀ l ∈ splitNlCr s, ∀ c ∈ l, isNlCr c = false := by
  intro s
  induction s with
  | nil =>
    intro l hl c hc
    simp only [splitNlCr, List.mem_singleton] at hl
    subst hl
    simp at hc
  | cons a rest ih =>
    intro l hl c hc
    by_cases ha : isNlCr a = true
    · rw [splitNlCr_cons_sep a _ ha] at hl
      rcases List.mem_cons.mp hl with h | h
      · subst h; simp at hc
      · exact ih l h c hc
    · obtain ⟨h', t', hx⟩ := splitNlCr_dest rest
      rw [splitNlCr_cons_other a _ ha _ _ hx] at hl
      rcases List.mem_cons.mp hl with h | h
      · subst h
        rcases List.mem_cons.mp hc with h2 | h2
        · subst h2
          exact Bool.of_not_eq_true ha
        · exact ih h' (by rw [hx]; exact List.mem_cons_self h' t') c h2
      · exact ih l (by rw [hx]; exact List.mem_cons_of_mem h' h) c hc

/-! ## jsLines, occursIn and joinNl interaction lemmas -/

theorem jsLines_nil : jsLines [] = [] := rfl

theorem jsLines_append_sep (x y : Str) :
    jsLines (x ++ '\n' :: y) = jsLines x ++ jsLines y := by
  unfold jsLines
  rw [splitNlCr_append_sep, List.filter_append]

theorem jsLines_clean (l : Str) (hchars : ∀ c ∈ l, isNlCr c = false)
    (hne : l ≠ []) : jsLines l = [l] := by
  unfold jsLines
  rw [splitNlCr_clean l hchars]
  simp [hne]

theorem jsLines_mem (s : Str) :
    ∀ l ∈ jsLines s, l ≠ [] ∧ ∀ c ∈ l, isNlCr c = false := by
  intro l hl
  unfold jsLines at hl
  have h := List.mem_filter.mp hl
  refine ⟨by simpa using h.2, fun c hc => splitNlCr_chars s l h.1 c hc⟩

theorem joinNl_jsLines (s : Str) (hcr : '\r' ∉ s) (hnb : noBlankLines s) :
    joinNl (jsLines s) = s := by
  rcases hnb with rfl | hnb
  · rfl
  · unfold jsLines
    rw [splitNlCr_eq_splitNl s hcr]
    rw [List.filter_eq_self.mpr (fun l hl => by simpa using hnb l hl)]
    exact joinNl_splitNl s

theorem joinNl_singleton (l : Str) : joinNl [l] = l := rfl

theorem joinNl_append (ys : List Str) (hys : ys ≠ []) :
    ∀ xs : List Str, joinNl (xs ++ ys) = joinNlDot xs ++ joinNl ys := by
  intro xs
  induction xs with
  | nil => simp [joinNlDot]
  | cons l ls ih =>
    obtain ⟨y, ys', rfl⟩ : ∃ y ys', ys = y :: ys' := by
      cases ys with
      | nil => exact absurd rfl hys
      | cons y ys' => exact ⟨y, ys', rfl⟩
    cases ls with
    | nil =>
      show joinNl (l :: y :: ys') = joinNlDot [l] ++ joinNl (y :: ys')
      rw [joinNl_cons_cons]
      have h2 : joinNlDot [l] = l ++ ['\n'] := by
        simp [joinNlDot, joinNl_singleton]
      rw [h2]
      simp
    | cons a b =>
      show joinNl (l :: ((a :: b) ++ (y :: ys'))) =
        joinNlDot (l :: a :: b) ++ joinNl (y :: ys')
      obtain ⟨z, zs, hz⟩ : ∃ z zs, (a :: b) ++ (y :: ys') = z :: zs :=
        ⟨a, b ++ (y :: ys'), rfl⟩
      rw [hz, joinNl_cons_cons, ← hz, ih]
      have h1 : joinNlDot (l :: a :: b) = (l ++ '\n' :: joinNl (a :: b)) ++ ['\n'] := by
        rw [joinNlDot]
        simp [joinNl_cons_cons]
      have h2 : joinNlDot (a :: b) = joinNl (a :: b) ++ ['\n'] := by
        simp [joinNlDot]
      rw [h1, h2]
      simp

theorem jsLines_joinNl (chunks : List Str) :
    jsLines (joinNl chunks) = (chunks.map jsLines).flatten := by
  induction chunks with
  | nil => rfl
  | cons l ls ih =>
    cases ls with
    | nil => simp [joinNl]
    | cons a b =>
      rw [joinNl_cons_cons, jsLines_append_sep, ih]
      simp

theorem leadsWith_sep_append (t : Str) (ht : ∀ c ∈ t, ¬(c = '\n')) :
    ∀ x y : Str, leadsWith t (x ++ '\n' :: y) = leadsWith t x := by
  induction t with
  | nil => intro x y; rfl
  | cons a t' ih =>
    intro x y
    cases x with
    | nil =>
      have ha : ¬(a = '\n') := ht a (List.mem_cons_self a t')
      simp [leadsWith, ha]
    | cons c x' =>
      rw [List.cons_append]
      show (a == c && leadsWith t' (x' ++ '\n' :: y)) = (a == c && leadsWith t' x')
      rw [ih (fun d hd => ht d (List.mem_cons_of_mem a hd)) x' y]

theorem occursIn_append_sep (t : Str) (ht : ∀ c ∈ t, ¬(c = '\n')) :
    ∀ x y : Str, occursIn t (x ++ '\n' :: y) = (occursIn t x || occursIn t y) := by
  intro x y
  induction x with
  | nil =>
    show (leadsWith t ('\n' :: y) || occursIn t y) = (leadsWith t [] || occursIn t y)
    rw [show leadsWith t ('\n' :: y) = leadsWith t ([] ++ '\n' :: y) from rfl,
      leadsWith_sep_append t ht [] y]
  | cons c x' ih =>
    rw [List.cons_append]
    show (leadsWith t (c :: (x' ++ '\n' :: y)) || occursIn t (x' ++ '\n' :: y)) =
      ((leadsWith t (c :: x') || occursIn t x') || occursIn t y)
    rw [show (c :: (x' ++ '\n' :: y)) = ((c :: x') ++ '\n' :: y) from rfl,
      leadsWith_sep_append t ht (c :: x') y, ih, Bool.or_assoc]

theorem occursIn_nil (t : Str) (ht : t ≠ []) : occursIn t [] = false := by
  cases t with
  | nil => exact absurd rfl ht
  | cons a t' => rfl

theorem occursIn_joinNl (t : Str) (ht : t ≠ []) (htn : ∀ c ∈ t, ¬(c = '\n')) :
    ∀ lines : List Str, (∀ l ∈ lines, occursIn t l = false) →
      occursIn t (joinNl lines) = false := by
  intro lines
  induction lines with
  | nil => intro _; exact occursIn_nil t ht
  | cons l ls ih =>
    intro h
    cases ls with
    | nil => exact h l (List.mem_cons_self l [])
    | cons a b =>
      rw [joinNl_cons_cons, occursIn_append_sep t htn, Bool.or_eq_false_iff]
      exact ⟨h l (List.mem_cons_self l _),
        ih (fun x hx => h x (List.mem_cons_of_mem l hx))⟩

/-! ## Newline-shape lemmas: nnFree, startsNl, endsNl, strips -/

theorem startsNl_cons (c : Char) (t : Str) : startsNl (c :: t) = (c == '\n') := rfl

theorem startsNl_nil : startsNl [] = false := rfl

theorem startsNl_append_left (x y : Str) (hx : x ≠ []) :
    startsNl (x ++ y) = startsNl x := by
  cases x with
  | nil => exact absurd rfl hx
  | cons c t => rfl

theorem startsNl_eq_true (s : Str) : startsNl s = true ↔ ∃ t, s = '\n' :: t := by
  cases s with
  | nil => simp [startsNl_nil]
  | cons c t =>
    rw [startsNl_cons]
    constructor
    · intro h
      exact ⟨t, by rw [beq_iff_eq.mp h]⟩
    · rintro ⟨t', ht⟩
      injection ht with h1 h2
      rw [h1]
      rfl

theorem nnFree_of_short (s : Str) (h : s.length ≤ 1) : nnFree s := by
  intro u v he
  have hl := congrArg List.length he
  simp [List.length_append] at hl
  omega

theorem nnFree_tail (c : Char) (rest : Str) (h : nnFree (c :: rest)) :
    nnFree rest := by
  intro u v he
  exact h (c :: u) v (by rw [he]; rfl)

theorem nnFree_cons (c : Char) (rest : Str) (hr : nnFree rest)
    (hcs : ¬(c = '\n' ∧ startsNl rest = true)) : nnFree (c :: rest) := by
  intro u v he
  cases u with
  | nil =>
    rw [List.nil_append] at he
    injection he with h1 h2
    exact hcs ⟨h1, by rw [h2]; rfl⟩
  | cons a u' =>
    rw [List.cons_append] at he
    injection he with _ h2
    exact hr u' v h2

theorem nnFree_inside (s u m v : Str) (h : nnFree s) (he : s = u ++ m ++ v) :
    nnFree m := by
  intro a b hm
  apply h (u ++ a) (b ++ v)
  rw [he, hm]
  simp

theorem nnFree_reverse (s : Str) (h : nnFree s) : nnFree s.reverse := by
  intro u v he
  apply h v.reverse u.reverse
  have h2 := congrArg List.reverse he
  rw [List.reverse_reverse] at h2
  rw [h2]
  simp [List.reverse_append]

theorem sep_head_startsNl (t : Str) (h : nnFree ('\n' :: t)) :
    startsNl t = false := by
  by_contra hcon
  obtain ⟨t', rfl⟩ := (startsNl_eq_true t).mp (Bool.of_not_eq_false hcon)
  exact h [] t' rfl

theorem endsNl_cons (c : Char) (rest : Str) (hr : rest ≠ []) :
    endsNl (c :: rest) = endsNl rest := by
  unfold endsNl
  rw [List.reverse_cons]
  exact startsNl_append_left _ _ (by simpa using hr)

theorem endsNl_singleton (c : Char) : endsNl [c] = (c == '\n') := rfl

theorem endsNl_append_right (x y : Str) (hy : y ≠ []) :
    endsNl (x ++ y) = endsNl y := by
  unfold endsNl
  rw [List.reverse_append]
  exact startsNl_append_left _ _ (by simpa using hy)

theorem endsNl_concat (x : Str) (c : Char) : endsNl (x ++ [c]) = (c == '\n') := by
  unfold endsNl
  rw [List.reverse_append]
  rfl

theorem stripLeadNl_sep (t : Str) : stripLeadNl ('\n' :: t) = t := by
  simp [stripLeadNl, startsNl_cons]

theorem stripLeadNl_of_false (s : Str) (h : startsNl s = false) :
    stripLeadNl s = s := by
  simp [stripLeadNl, h]

theorem stripLeadNl_suffix (s : Str) : ∃ u : Str, s = u ++ stripLeadNl s := by
  by_cases h : startsNl s = true
  · obtain ⟨t, rfl⟩ := (startsNl_eq_true s).mp h
    exact ⟨['\n'], by rw [stripLeadNl_sep]; rfl⟩
  · exact ⟨[], by rw [stripLeadNl_of_false s (Bool.of_not_eq_true h)]; rfl⟩

theorem stripTrailNl_front (s : Str) : ∃ v : Str, s = stripTrailNl s ++ v := by
  obtain ⟨u, hu⟩ := stripLeadNl_suffix s.reverse
  refine ⟨u.reverse, ?_⟩
  have h3 := congrArg List.reverse hu
  rw [List.reverse_reverse, List.reverse_append] at h3
  exact h3

theorem startsNl_stripLeadNl (m : Str) (h : nnFree m) :
    startsNl (stripLeadNl m) = false := by
  by_cases hm : startsNl m = true
  · obtain ⟨t, rfl⟩ := (startsNl_eq_true m).mp hm
    rw [stripLeadNl_sep]
    exact sep_head_startsNl t h
  · rw [stripLeadNl_of_false m (Bool.of_not_eq_true hm)]
    exact Bool.of_not_eq_true hm

theorem startsNl_stripTrailNl (s : Str) (h : startsNl s = false) :
    startsNl (stripTrailNl s) = false := by
  obtain ⟨v, hv⟩ := stripTrailNl_front s
  cases hst : stripTrailNl s with
  | nil => rfl
  | cons a t =>
    rw [hst] at hv
    rw [hv, List.cons_append, startsNl_cons] at h
    rw [startsNl_cons]
    exact h

theorem endsNl_stripTrailNl (m : Str) (h : nnFree m) :
    endsNl (stripTrailNl m) = false := by
  unfold endsNl stripTrailNl
  rw [List.reverse_reverse]
  exact startsNl_stripLeadNl m.reverse (nnFree_reverse m h)

theorem endsNl_stripLeadNl (s : Str) (h : endsNl s = false) :
    endsNl (stripLeadNl s) = false := by
  by_cases hm : startsNl s = true
  · obtain ⟨t, rfl⟩ := (startsNl_eq_true s).mp hm
    rw [stripLeadNl_sep]
    cases t with
    | nil => rfl
    | cons a t' =>
      rw [← endsNl_cons '\n' (a :: t') (by simp)]
      exact h
  · rw [stripLeadNl_of_false s (Bool.of_not_eq_true hm)]
    exact h

theorem beq_nl_false (c : Char) (hc : ¬(c = '\n')) : (c == '\n') = false :=
  beq_eq_false_iff_ne.mpr hc

theorem clean_chunks :
    ∀ n (s : Str), s.length ≤ n → s ≠ [] → nnFree s → startsNl s = false →
      endsNl s = false → ∀ l ∈ splitNl s, l ≠ [] := by
  intro n
  induction n with
  | zero =>
    intro s hlen hne _ _ _
    exact absurd (List.length_eq_zero.mp (Nat.le_zero.mp hlen)) hne
  | succ n ih =>
    intro s hlen hne hnn hs he
    obtain ⟨c, rest, rfl⟩ : ∃ c rest, s = c :: rest := by
      cases s with
      | nil => exact absurd rfl hne
      | cons c rest => exact ⟨c, rest, rfl⟩
    have hc : ¬(c = '\n') := by
      intro h
      rw [startsNl_cons, h] at hs
      simp at hs
    cases rest with
    | nil =>
      intro l hl
      rw [splitNl_cons_other c [] hc [] [] rfl] at hl
      simp only [List.mem_singleton] at hl
      subst hl
      simp
    | cons d rest' =>
      by_cases hd : d = '\n'
      · subst hd
        have hr' : rest' ≠ [] := by
          intro h0
          subst h0
          rw [endsNl_cons c ['\n'] (by simp), endsNl_singleton] at he
          simp at he
        have hnn1 : nnFree ('\n' :: rest') := nnFree_tail c _ hnn
        have hsr' : startsNl rest' = false := sep_head_startsNl rest' hnn1
        have her' : endsNl rest' = false := by
          rw [endsNl_cons c ('\n' :: rest') (by simp),
            endsNl_cons '\n' rest' hr'] at he
          exact he
        have hrec := ih rest' (by simp at hlen ⊢; omega) hr'
          (nnFree_tail '\n' _ hnn1) hsr' her'
        intro l hl
        have h1 : splitNl ('\n' :: rest') = [] :: splitNl rest' :=
          splitNl_cons_sep rest'
        rw [splitNl_cons_other c ('\n' :: rest') hc [] (splitNl rest') h1] at hl
        rcases List.mem_cons.mp hl with h | h
        · subst h; simp
        · exact hrec l h
      · have hrne : (d :: rest') ≠ [] := by simp
        have hsr : startsNl (d :: rest') = false := by
          rw [startsNl_cons]
          exact beq_nl_false d hd
        have her : endsNl (d :: rest') = false := by
          rw [← endsNl_cons c (d :: rest') hrne]
          exact he
        have hrec := ih (d :: rest') (by simp at hlen ⊢; omega) hrne
          (nnFree_tail c _ hnn) hsr her
        intro l hl
        obtain ⟨h2, t2, hx⟩ := splitNl_dest (d :: rest')
        rw [splitNl_cons_other c (d :: rest') hc h2 t2 hx] at hl
        rcases List.mem_cons.mp hl with h | h
        · subst h; simp
        · exact hrec l (by rw [hx]; exact List.mem_cons_of_mem h2 h)

theorem chunks_clean :
    ∀ n (s : Str), s.length ≤ n → s ≠ [] → (∀ l ∈ splitNl s, l ≠ []) →
      nnFree s ∧ startsNl s = false ∧ endsNl s = false := by
  intro n
  induction n with
  | zero =>
    intro s hlen hne _
    exact absurd (List.length_eq_zero.mp (Nat.le_zero.mp hlen)) hne
  | succ n ih =>
    intro s hlen hne hall
    obtain ⟨c, rest, rfl⟩ : ∃ c rest, s = c :: rest := by
      cases s with
      | nil => exact absurd rfl hne
      | cons c rest => exact ⟨c, rest, rfl⟩
    have hc : ¬(c = '\n') := by
      intro h
      subst h
      exact hall [] (by rw [splitNl_cons_sep rest]; exact List.mem_cons_self _ _) rfl
    cases rest with
    | nil =>
      refine ⟨nnFree_of_short [c] (by simp), ?_, ?_⟩
      · rw [startsNl_cons]; exact beq_nl_false c hc
      · rw [endsNl_singleton]; exact beq_nl_false c hc
    | cons d rest' =>
      by_cases hd : d = '\n'
      · subst hd
        have hx2 : splitNl ('\n' :: rest') = [] :: splitNl rest' :=
          splitNl_cons_sep rest'
        have hsplit : splitNl (c :: '\n' :: rest') = [c] :: splitNl rest' :=
          splitNl_cons_other c ('\n' :: rest') hc [] (splitNl rest') hx2
        have hall' : ∀ l ∈ splitNl rest', l ≠ [] := by
          intro l hl
          exact hall l (by rw [hsplit]; exact List.mem_cons_of_mem _ hl)
        have hr' : rest' ≠ [] := by
          intro h0
          subst h0
          exact hall' [] (by simp [splitNl]) rfl
        obtain ⟨hnn', hs', he'⟩ := ih rest' (by simp at hlen ⊢; omega) hr' hall'
        have hnn1 : nnFree ('\n' :: rest') := by
          apply nnFree_cons '\n' rest' hnn'
          intro hx
          rw [hs'] at hx
          cases hx.2
        refine ⟨?_, ?_, ?_⟩
        · apply nnFree_cons c ('\n' :: rest') hnn1
          intro hx
          exact hc hx.1
        · rw [startsNl_cons]; exact beq_nl_false c hc
        · rw [endsNl_cons c ('\n' :: rest') (by simp), endsNl_cons '\n' rest' hr']
          exact he'
      · obtain ⟨h3, t3, hx3⟩ := splitNl_dest rest'
        have hxr : splitNl (d :: rest') = (d :: h3) :: t3 :=
          splitNl_cons_other d rest' hd h3 t3 hx3
        have hsplit : splitNl (c :: d :: rest') = (c :: d :: h3) :: t3 :=
          splitNl_cons_other c (d :: rest') hc (d :: h3) t3 hxr
        have hall' : ∀ l ∈ splitNl (d :: rest'), l ≠ [] := by
          intro l hl
          rw [hxr] at hl
          rcases List.mem_cons.mp hl with h | h
          · subst h; simp
          · exact hall l (by rw [hsplit]; exact List.mem_cons_of_mem _ h)
        obtain ⟨hnn', hs', he'⟩ := ih (d :: rest') (by simp at hlen ⊢; omega)
          (by simp) hall'
        refine ⟨?_, ?_, ?_⟩
        · apply nnFree_cons c (d :: rest') hnn'
          intro hx
          rw [hs'] at hx
          cases hx.2
        · rw [startsNl_cons]; exact beq_nl_false c hc
        · rw [endsNl_cons c (d :: rest') (by simp)]
          exact he'

/-- A string that is empty, or nonempty with clean newline shape, has no
blank line; and conversely. -/
theorem noBlankLines_iff_clean (s : Str) :
    noBlankLines s ↔
      (s = [] ∨ (nnFree s ∧ startsNl s = false ∧ endsNl s = false)) := by
  constructor
  · rintro (rfl | h)
    · exact Or.inl rfl
    · by_cases hne : s = []
      · exact Or.inl hne
      · exact Or.inr (chunks_clean s.length s le_rfl hne h)
  · rintro (rfl | ⟨hnn, hs, he⟩)
    · exact Or.inl rfl
    · by_cases hne : s = []
      · exact Or.inl hne
      · exact Or.inr (clean_chunks s.length s le_rfl hne hnn hs he)

theorem jsIndexOf_mem (x : Str) :
    ∀ (ls : List Str) (i : Nat), jsIndexOf x ls = some i → x ∈ ls := by
  intro ls
  induction ls with
  | nil => intro i h; cases h
  | cons y ys ih =>
    intro i h
    by_cases hy : y = x
    · rw [hy]; exact List.mem_cons_self x ys
    · simp only [jsIndexOf, if_neg hy] at h
      cases hj : jsIndexOf x ys with
      | none => rw [hj] at h; cases h
      | some j => exact List.mem_cons_of_mem y (ih j hj)

/-! ## Claim theorems -/

/-- C1: for every relay data source (including adversarial ones) and every
start event, the reply-chain walk of `resolveSourceRunEvent` terminates (it is
a total function by construction); it never revisits the same event id within
one resolution (the visited list stays duplicate-free, for every relay, start
state and hop budget), and on the two-node cycle `A → B → A` it stops and
returns `none` for every hop budget. -/
theorem c1_resolve_cycle_safe :
    (∀ (relay : Option Str → Option Event) (cur : Event) (visited : List Str)
        (n : Nat), visited.Nodup →
        ((resolveSourceRunEventGo relay cur visited n).2).Nodup) ∧
    (∀ n : Nat, resolveSourceRunEvent cycleRelay cycleStart n = none) := by
  constructor
  · intro relay cur visited n
    induction n generalizing cur visited with
    | zero => intro h; exact h
    | succ n ih =>
      intro h
      simp only [resolveSourceRunEventGo]
      cases hg : getSourceEvent relay cur with
      | none => exact h
      | some e =>
        dsimp only
        by_cases hmem : e.id ∈ visited
        · rw [if_pos hmem]; exact h
        · rw [if_neg hmem]
          by_cases hrun : leadsWith ("/run".toList) e.content = true
          · rw [if_pos hrun]
            exact List.nodup_cons.mpr ⟨hmem, h⟩
          · rw [if_neg hrun]
            exact ih e (e.id :: visited) (List.nodup_cons.mpr ⟨hmem, h⟩)
  · intro n
    match n with
    | 0 => rfl
    | 1 => rfl
    | 2 => rfl
    | (k + 3) => rfl

/-- Witness for C1 at concrete inputs: the empty visited list is
duplicate-free and stays so over a four-hop run against the cycle relay, and
the cycle resolution with hop budget 7 returns `none`. -/
theorem c1_witness :
    ((resolveSourceRunEventGo cycleRelay cycleStart [] 4).2).Nodup ∧
    resolveSourceRunEvent cycleRelay cycleStart 7 = none :=
  ⟨c1_resolve_cycle_safe.1 cycleRelay cycleStart [] 4 List.nodup_nil,
   c1_resolve_cycle_safe.2 7⟩

/-- C2: if the language token of the first nonblank line is the literal
`help`, `parseRunCommandSpec` returns the help kind; if it is `lang`, the
list kind — never a run command carrying those tokens as a language. -/
theorem c2_help_lang_dispatch :
    ∀ (content first : Str) (restL : List Str),
      jsLines content = first :: restL →
      ((jsTrim (replaceRun first) = ("help".toList) →
          parseRunCommandSpec content = some ParsedCommand.help) ∧
       (jsTrim (replaceRun first) = ("lang".toList) →
          parseRunCommandSpec content = some ParsedCommand.list)) := by
  intro content first restL hjs
  constructor
  · intro h
    unfold parseRunCommandSpec
    rw [hjs]
    simp only [h]
    simp
  · intro h
    unfold parseRunCommandSpec
    rw [hjs]
    simp only [h]
    simp

/-- Witness for C2: `/run help` parses to the help kind and `/run lang` to
the list kind. -/
theorem c2_witness :
    parseRunCommandSpec ("/run help".toList) = some ParsedCommand.help ∧
    parseRunCommandSpec ("/run lang".toList) = some ParsedCommand.list :=
  ⟨(c2_help_lang_dispatch ("/run help".toList) ("/run help".toList) []
      (by decide)).1 (by decide),
   (c2_help_lang_dispatch ("/run lang".toList) ("/run lang".toList) []
      (by decide)).2 (by decide)⟩

/-- C6: `parseRerunCommand` is total (it returns a `RerunRequest` for every
input, never failing, by its very type); empty input yields empty args and
stdin; with a `---` separator line present (at first index `i`), the nonblank
lines before it are the arguments and all lines after it (blank ones
included), joined with newline, form stdin; with no separator, every nonblank
line is an argument and stdin is empty. -/
theorem c6_parseRerunCommand_total :
    (parseRerunCommand ([] : Str) = { args := [], stdin := [] }) ∧
    (∀ content : Str,
       jsIndexOf ("---".toList) ((splitNl content).tail) = none →
       parseRerunCommand content =
         { args := ((splitNl content).tail).filter (fun l => jsTrim l ≠ [])
           stdin := [] }) ∧
    (∀ (content : Str) (i : Nat),
       jsIndexOf ("---".toList) ((splitNl content).tail) = some i →
       parseRerunCommand content =
         { args := (((splitNl content).tail).take i).filter (fun l => jsTrim l ≠ [])
           stdin := joinNl (((splitNl content).tail).drop (i + 1)) }) := by
  refine ⟨rfl, ?_, ?_⟩
  · intro content h
    unfold parseRerunCommand
    by_cases hearly :
        (splitNl content).tail = [] ∨ ∀ l ∈ (splitNl content).tail, jsTrim l = []
    · rw [if_pos hearly]
      have hfil : ((splitNl content).tail).filter (fun l => jsTrim l ≠ []) = [] := by
        rcases hearly with h0 | h0
        · rw [h0]; rfl
        · exact List.filter_eq_nil_iff.mpr (fun a ha => by simp [h0 a ha])
      rw [hfil]
    · rw [if_neg hearly, h]
  · intro content i h
    unfold parseRerunCommand
    have hmem : ("---".toList : Str) ∈ (splitNl content).tail :=
      jsIndexOf_mem _ _ i h
    have hearly :
        ¬((splitNl content).tail = [] ∨ ∀ l ∈ (splitNl content).tail, jsTrim l = []) := by
      rintro (h0 | h0)
      · rw [h0] at hmem; cases hmem
      · have := h0 _ hmem
        revert this
        decide
    rw [if_neg hearly, h]

/-- Witness for C6 at concrete inputs covering all three parts. -/
theorem c6_witness :
    parseRerunCommand ([] : Str) = { args := [], stdin := [] } ∧
    parseRerunCommand ("/rerun\na\nb".toList) =
      { args := [("a".toList), ("b".toList)], stdin := [] } ∧
    parseRerunCommand ("/rerun\na\n---\nx\n\ny".toList) =
      { args := [("a".toList)], stdin := ("x\n\ny".toList) } := by
  refine ⟨c6_parseRerunCommand_total.1, ?_, ?_⟩
  · have h := c6_parseRerunCommand_total.2.1 ("/rerun\na\nb".toList) (by decide)
    exact h
  · have h := c6_parseRerunCommand_total.2.2 ("/rerun\na\n---\nx\n\ny".toList) 1
      (by decide)
    exact h

/-- C7 (amended): `formatExecutionResult` evaluates by fixed priority: a
compile stage with nonzero exit code wins (even over a present run stage);
otherwise a present run stage's output is returned even when empty; otherwise
a present `non-empty` message is returned; otherwise (no run stage and no
nonempty message — including a present but empty message, which JS truthiness
treats as absent) the generic error string is returned. -/
theorem c7_format_priority :
    (∀ (r : ExecResult) (st : Stage), r.compile = some st → st.code ≠ 0 →
       formatExecutionResult r = st.output) ∧
    (∀ (r : ExecResult) (st : Stage), compileTruthy r = false → r.run = some st →
       formatExecutionResult r = st.output) ∧
    (∀ (r : ExecResult) (m : Str), compileTruthy r = false → r.run = none →
       r.message = some m → m ≠ [] → formatExecutionResult r = m) ∧
    (∀ r : ExecResult, compileTruthy r = false → r.run = none →
       (r.message = none ∨ r.message = some []) →
       formatExecutionResult r = ("Execution error".toList)) := by
  refine ⟨?_, ?_, ?_, ?_⟩
  · intro r st hc hcode
    have ht : compileTruthy r = true := by
      unfold compileTruthy
      rw [hc]
      simpa using hcode
    unfold formatExecutionResult
    rw [ht, if_pos rfl, hc]
  · intro r st hct hr
    unfold formatExecutionResult
    rw [hct, hr]
    simp
  · intro r m hct hr hm hne
    unfold formatExecutionResult
    rw [hct, hr, hm]
    simp [hne]
  · intro r hct hr hm
    unfold formatExecutionResult
    rw [hct, hr]
    rcases hm with hm | hm <;> rw [hm] <;> simp

/-- Witness for C7 at the spec's own examples. -/
theorem c7_witness :
    formatExecutionResult
      { compile := some ⟨("E".toList), 1⟩, run := some ⟨("R".toList), 0⟩
        message := none } = ("E".toList) ∧
    formatExecutionResult
      { compile := none, run := some ⟨("R".toList), 0⟩, message := none } =
      ("R".toList) ∧
    formatExecutionResult
      { compile := none, run := none, message := some ("M".toList) } =
      ("M".toList) ∧
    formatExecutionResult { compile := none, run := none, message := none } =
      ("Execution error".toList) :=
  ⟨c7_format_priority.1 _ ⟨("E".toList), 1⟩ rfl (by decide),
   c7_format_priority.2.1 _ ⟨("R".toList), 0⟩ rfl rfl,
   c7_format_priority.2.2.1 _ ("M".toList) rfl rfl rfl (by decide),
   c7_format_priority.2.2.2 _ rfl rfl (Or.inl rfl)⟩

/-- C7 counterexample: a present but empty top-level message exists, yet the
function returns the generic error string, not the message. -/
theorem c7_counterexample :
    formatExecutionResult { compile := none, run := none, message := some [] } =
      ("Execution error".toList) ∧
    formatExecutionResult { compile := none, run := none, message := some [] } ≠
      ([] : Str) := by
  constructor
  · rfl
  · decide

/-- C8: for every signer, content, target event and key, `composeReplyPost`
yields a kind-1 event whose tag list carries exactly one `e` tag (the
target's id) and exactly one `p` tag (the target's pubkey), and whose
`created_at` is the target's `created_at` plus one — a value computed from
the target alone, independent of any wall clock. -/
theorem c8_composeReplyPost_shape :
    ∀ (signer : Signer) (content : Str) (target : Event) (key : Str),
      (composeReplyPost signer content target key).kind = 1 ∧
      (composeReplyPost signer content target key).tags.filter
          (fun t => t.head? = some ("e".toList)) = [[("e".toList), target.id]] ∧
      (composeReplyPost signer content target key).tags.filter
          (fun t => t.head? = some ("p".toList)) = [[("p".toList), target.pubkey]] ∧
      (composeReplyPost signer content target key).created_at =
        target.created_at + 1 := by
  intro signer content target key
  refine ⟨rfl, ?_, ?_, rfl⟩
  · show List.filter _ [[("e".toList), target.id], [("p".toList), target.pubkey]] = _
    rw [List.filter_cons, List.filter_cons]
    norm_num
    decide
  · show List.filter _ [[("e".toList), target.id], [("p".toList), target.pubkey]] = _
    rw [List.filter_cons, List.filter_cons]
    norm_num
    decide

/-- C9: `getSourceEvent` returns `null` when the event carries no `e` tag;
when `e` tags exist it queries the relay for exactly the id in position 1 of
the last `e` tag in tag-list order and returns whatever the relay matched
(the event, or `null` when nothing matched). -/
theorem c9_getSourceEvent_last_etag :
    ∀ (relay : Option Str → Option Event) (event : Event),
      (event.tags.filter (fun t => t.head? = some ("e".toList)) = [] →
         getSourceEvent relay event = none) ∧
      (∀ (t : List Str) (id : Str),
         (event.tags.filter (fun t => t.head? = some ("e".toList))).getLast? =
           some t →
         t[1]? = some id →
         getSourceEvent relay event = relay (some id)) := by
  intro relay event
  constructor
  · intro h
    unfold getSourceEvent
    simp only [h]
    rfl
  · intro t id hlast hid
    unfold getSourceEvent
    have hne : event.tags.filter (fun t => t.head? = some ("e".toList)) ≠ [] := by
      intro h0
      rw [h0] at hlast
      cases hlast
    have hlen : ¬((event.tags.filter (fun t => t.head? = some ("e".toList))).length = 0) := by
      simpa [List.length_eq_zero] using hne
    simp only [if_neg hlen, hlast, hid, Option.bind]

/-- Witness for C9: a tag list with no `e` tag yields `none`; with two `e`
tags the later one's id is what is queried. -/
theorem c9_witness :
    getSourceEvent cycleRelay
      { id := [], pubkey := [], kind := 1, content := [], created_at := 0
        tags := [[("p".toList), ("q".toList)]], sig := [] } = none ∧
    getSourceEvent cycleRelay
      { id := [], pubkey := [], kind := 1, content := [], created_at := 0
        tags := [[("e".toList), ("b".toList)], [("p".toList), ("q".toList)],
                 [("e".toList), ("a".toList)]], sig := [] } =
      cycleRelay (some ("a".toList)) :=
  ⟨(c9_getSourceEvent_last_etag cycleRelay _).1 (by decide),
   (c9_getSourceEvent_last_etag cycleRelay _).2 [("e".toList), ("a".toList)]
     ("a".toList) (by decide) (by decide)⟩

/-- C10: under the precondition that the language token is a key of the
table, `buildScript` returns the script `{content := code}` with the name
`file0.emojic` exactly when the entry's canonical language is `emojicode`;
for a token absent from the table the unguarded lookup fails (embedded as
`none`), a reachable error branch the spec does not mention. -/
theorem c10_buildScript_lookup :
    (∀ (code : Str) (languages : Str → Option LanguageEntry) (language : Str)
        (entry : LanguageEntry), languages language = some entry →
        buildScript code languages language =
          some { content := code
                 name := if entry.language = ("emojicode".toList)
                         then some ("file0.emojic".toList) else none }) ∧
    buildScript [] (fun _ => none) ("py".toList) = none := by
  constructor
  · intro code languages language entry h
    unfold buildScript
    rw [h]
  · rfl

/-- Witness for C10: a concrete one-entry table at its own key. -/
theorem c10_witness :
    buildScript ("x".toList)
      (fun k => if k = ("emojicode".toList)
                then some ⟨("emojicode".toList), ("1.0.0".toList)⟩ else none)
      ("emojicode".toList) =
      some { content := ("x".toList)
             name := if (("emojicode".toList) : Str) = ("emojicode".toList)
                     then some ("file0.emojic".toList) else none } :=
  c10_buildScript_lookup.1 ("x".toList) _ ("emojicode".toList)
    ⟨("emojicode".toList), ("1.0.0".toList)⟩ (by decide)

/-- The basic-syntax branch of `parseRunCommand`, expressed through the
first- and second-fence decomposition of the body. -/
theorem parseRunCommand_basic (content first : Str) (restL : List Str)
    (pre q mid post : Str)
    (hjs : jsLines content = first :: restL)
    (h2 : breakTicks (joinNl restL) = some (pre, q))
    (h3 : breakTicks q = some (mid, post)) :
    parseRunCommand content =
      some { language := jsTrim (replaceRun first)
             args := (splitNl pre).filter (fun l => jsTrim l ≠ [])
             code := stripTrailNl (stripLeadNl mid)
             stdin := stripLeadNl post } := by
  have hparts : splitTicks (joinNl restL) = pre :: mid :: splitTicks post := by
    rw [splitTicks_cons _ _ _ h2, splitTicks_cons _ _ _ h3]
  unfold parseRunCommand
  rw [hjs]
  dsimp only
  rw [h2]
  dsimp only
  rw [h3]
  dsimp only
  rw [hparts]
  simp only [List.getD_cons_zero, List.getD_cons_succ, List.drop_succ_cons,
    List.drop_zero, joinTicks_splitTicks]

/-- The legacy branch of `parseRunCommand`: with fewer than two fence markers
in the body, the whole body is the code. -/
theorem parseRunCommand_legacy (content first : Str) (restL : List Str)
    (hjs : jsLines content = first :: restL)
    (hleg : breakTicks (joinNl restL) = none ∨
      ∃ pre q, breakTicks (joinNl restL) = some (pre, q) ∧ breakTicks q = none) :
    parseRunCommand content =
      some { language := jsTrim (replaceRun first), args := []
             code := joinNl restL, stdin := [] } := by
  unfold parseRunCommand
  rw [hjs]
  dsimp only
  rcases hleg with h | ⟨pre, q, h2, h3⟩
  · rw [h]
  · rw [h2]
    dsimp only
    rw [h3]

/-- C4: on every basic-syntax input (a body with two or more fence markers:
a first fence cut `(pre, q)` and a second cut `(mid, post)`), the parsed code
is the segment between the first and second fence with exactly one leading
and one trailing newline stripped and everything else preserved, and the
parsed stdin is everything after the second fence (as rejoined by the fence
marker) with a single leading newline stripped; `pre` and `mid` contain no
fence occurrence, so the cuts really are the first and second fences. -/
theorem c4_basic_fences (content first : Str) (restL : List Str)
    (pre q mid post : Str)
    (hjs : jsLines content = first :: restL)
    (h2 : breakTicks (joinNl restL) = some (pre, q))
    (h3 : breakTicks q = some (mid, post)) :
    parseRunCommand content =
      some { language := jsTrim (replaceRun first)
             args := (splitNl pre).filter (fun l => jsTrim l ≠ [])
             code := stripTrailNl (stripLeadNl mid)
             stdin := stripLeadNl post } ∧
    joinNl restL = pre ++ tb ++ mid ++ tb ++ post ∧
    occursIn tb pre = false ∧ occursIn tb mid = false := by
  refine ⟨parseRunCommand_basic content first restL pre q mid post hjs h2 h3,
    ?_, breakSep_pre tb tb_ne_nil _ pre q h2,
    breakSep_pre tb tb_ne_nil _ mid post h3⟩
  have hd2 : joinNl restL = pre ++ tb ++ q := breakSep_sound tb _ pre q h2
  have hd3 : q = mid ++ tb ++ post := breakSep_sound tb q mid post h3
  rw [hd2, hd3]
  simp [List.append_assoc]

/-- Witness for C4: a concrete basic-syntax message with two-line code and
trailing stdin. -/
theorem c4_witness :
    parseRunCommand ("/run py\narg1\n```\nco\nde\n```\nsin".toList) =
      some { language := ("py".toList), args := [("arg1".toList)]
             code := ("co\nde".toList), stdin := ("sin".toList) } ∧
    ("arg1\n```\nco\nde\n```\nsin".toList : Str) =
      ("arg1\n".toList) ++ tb ++ ("\nco\nde\n".toList) ++ tb ++ ("\nsin".toList) ∧
    occursIn tb ("arg1\n".toList) = false ∧
    occursIn tb ("\nco\nde\n".toList) = false := by
  have h := c4_basic_fences ("/run py\narg1\n```\nco\nde\n```\nsin".toList)
    ("/run py".toList)
    [("arg1".toList), ("```".toList), ("co".toList), ("de".toList),
     ("```".toList), ("sin".toList)]
    ("arg1\n".toList) ("\nco\nde\n```\nsin".toList) ("\nco\nde\n".toList)
    ("\nsin".toList) (by decide) (by decide) (by decide)
  exact h

theorem noBlank_strip_both (m : Str) (hnn : nnFree m) :
    noBlankLines (stripTrailNl (stripLeadNl m)) := by
  rw [noBlankLines_iff_clean]
  by_cases h0 : stripTrailNl (stripLeadNl m) = []
  · exact Or.inl h0
  · refine Or.inr ⟨?_, ?_, ?_⟩
    · obtain ⟨u, hu⟩ := stripLeadNl_suffix m
      obtain ⟨v, hv⟩ := stripTrailNl_front (stripLeadNl m)
      refine nnFree_inside m u _ v hnn ?_
      conv_lhs => rw [hu, hv]
      rw [List.append_assoc]
    · exact startsNl_stripTrailNl _ (startsNl_stripLeadNl m hnn)
    · apply endsNl_stripTrailNl
      obtain ⟨u, hu⟩ := stripLeadNl_suffix m
      exact nnFree_inside m u _ [] hnn (by rw [List.append_nil]; exact hu)

theorem noBlank_strip_lead (post : Str) (hnn : nnFree post)
    (hend : post = [] ∨ endsNl post = false) :
    noBlankLines (stripLeadNl post) := by
  rw [noBlankLines_iff_clean]
  by_cases h0 : stripLeadNl post = []
  · exact Or.inl h0
  · rcases hend with rfl | hend
    · exact absurd rfl h0
    · refine Or.inr ⟨?_, startsNl_stripLeadNl post hnn, endsNl_stripLeadNl post hend⟩
      obtain ⟨u, hu⟩ := stripLeadNl_suffix post
      exact nnFree_inside post u _ [] hnn (by rw [List.append_nil]; exact hu)

/-- C3: for every input accepted by `parseRunCommand`, the purely blank lines
have been dropped before any fence/legacy branching, so the parsed argument
list never contains a blank entry (every entry has nonempty trim) and the
parsed code and stdin never contain a blank line. -/
theorem c3_no_blank_lines :
    ∀ (content : Str) (r : RunCommand), parseRunCommand content = some r →
      (∀ a ∈ r.args, jsTrim a ≠ []) ∧ noBlankLines r.code ∧
        noBlankLines r.stdin := by
  intro content r hp
  cases hjs : jsLines content with
  | nil =>
    unfold parseRunCommand at hp
    rw [hjs] at hp
    cases hp
  | cons first restL =>
    have hlineprops : ∀ l ∈ restL, l ≠ [] ∧ ∀ c ∈ l, isNlCr c = false := by
      intro l hl
      exact jsLines_mem content l (by rw [hjs]; exact List.mem_cons_of_mem _ hl)
    by_cases hne : restL = []
    · subst hne
      have hleg := parseRunCommand_legacy content first [] hjs (Or.inl rfl)
      rw [hleg] at hp
      injection hp with hp'
      subst hp'
      exact ⟨fun a ha => absurd ha (by simp), Or.inl rfl, Or.inl rfl⟩
    · have hchars : ∀ l ∈ restL, '\n' ∉ l := by
        intro l hl hm
        have h1 := (hlineprops l hl).2 '\n' hm
        exact absurd h1 (by decide)
      have hsplitrest : splitNl (joinNl restL) = restL :=
        splitNl_joinNl restL hchars hne
      have hrestchunks : ∀ l ∈ splitNl (joinNl restL), l ≠ [] := by
        rw [hsplitrest]
        intro l hl
        exact (hlineprops l hl).1
      have hrestne : joinNl restL ≠ [] := by
        intro h0
        rw [h0] at hsplitrest
        have h1 : ([] : Str) ∈ restL := by
          rw [← hsplitrest]
          exact List.mem_singleton.mpr rfl
        exact (hlineprops [] h1).1 rfl
      obtain ⟨hnn, hs, he⟩ :=
        chunks_clean (joinNl restL).length _ le_rfl hrestne hrestchunks
      cases hb2 : breakTicks (joinNl restL) with
      | none =>
        have hleg := parseRunCommand_legacy content first restL hjs (Or.inl hb2)
        rw [hleg] at hp
        injection hp with hp'
        subst hp'
        exact ⟨fun a ha => absurd ha (by simp), Or.inr hrestchunks, Or.inl rfl⟩
      | some pq =>
        obtain ⟨pre, q⟩ := pq
        cases hb3 : breakTicks q with
        | none =>
          have hleg := parseRunCommand_legacy content first restL hjs
            (Or.inr ⟨pre, q, hb2, hb3⟩)
          rw [hleg] at hp
          injection hp with hp'
          subst hp'
          exact ⟨fun a ha => absurd ha (by simp), Or.inr hrestchunks, Or.inl rfl⟩
        | some mp =>
          obtain ⟨mid, post⟩ := mp
          have hbasic :=
            parseRunCommand_basic content first restL pre q mid post hjs hb2 hb3
          rw [hbasic] at hp
          injection hp with hp'
          subst hp'
          have hd2 : joinNl restL = pre ++ tb ++ q :=
            breakSep_sound tb _ pre q hb2
          have hd3 : q = mid ++ tb ++ post := breakSep_sound tb q mid post hb3
          have hdec : joinNl restL = (pre ++ tb) ++ mid ++ (tb ++ post) := by
            rw [hd2, hd3]
            simp [List.append_assoc]
          have hnnmid : nnFree mid :=
            nnFree_inside _ (pre ++ tb) mid (tb ++ post) hnn hdec
          have hdecp : joinNl restL = (pre ++ tb ++ mid ++ tb) ++ post ++ [] := by
            rw [hd2, hd3]
            simp [List.append_assoc]
          have hnnpost : nnFree post := nnFree_inside _ _ post [] hnn hdecp
          refine ⟨?_, noBlank_strip_both mid hnnmid, ?_⟩
          · intro a ha
            have h1 := (List.mem_filter.mp ha).2
            simpa using h1
          · apply noBlank_strip_lead post hnnpost
            by_cases hp0 : post = []
            · exact Or.inl hp0
            · right
              have hsp : joinNl restL = (pre ++ tb ++ mid ++ tb) ++ post := by
                rw [hd2, hd3]
                simp [List.append_assoc]
              have h1 : endsNl post = endsNl (joinNl restL) := by
                rw [hsp]
                exact (endsNl_append_right _ post hp0).symm
              rw [h1]
              exact he

/-- Witness for C3 at a concrete basic-syntax input. -/
theorem c3_witness :
    (∀ a ∈ [("arg1".toList)], jsTrim a ≠ []) ∧
    noBlankLines ("co\nde".toList) ∧ noBlankLines ("sin".toList) := by
  have h := c3_no_blank_lines ("/run py\narg1\n```\nco\nde\n```\nsin".toList)
    { language := ("py".toList), args := [("arg1".toList)]
      code := ("co\nde".toList), stdin := ("sin".toList) } (by decide)
  exact h

theorem breakSep_self_append (sep Y : Str) (hsep : sep ≠ []) :
    breakSep sep (sep ++ Y) = some ([], Y) := by
  obtain ⟨b, bs, hY⟩ : ∃ b bs, sep ++ Y = b :: bs := by
    cases h : sep ++ Y with
    | nil => exact absurd (List.append_eq_nil.mp h).1 hsep
    | cons b bs => exact ⟨b, bs, rfl⟩
  rw [hY]
  have hl : leadsWith sep (b :: bs) = true := by
    rw [← hY]
    exact leadsWith_append_self sep Y
  have hdrop : (b :: bs).drop sep.length = Y := by
    rw [← hY]
    exact List.drop_left sep Y
  simp only [breakSep, if_pos hl, hdrop]

theorem stripTrailNl_newline (x : Str) : stripTrailNl (x ++ ['\n']) = x := by
  unfold stripTrailNl
  rw [List.reverse_append]
  rw [show ((['\n'] : Str).reverse ++ x.reverse) = '\n' :: x.reverse from rfl]
  rw [stripLeadNl_sep, List.reverse_reverse]

theorem flatten_map_singleton (l : List Str) :
    (l.map (fun a => ([a] : List Str))).flatten = l := by
  induction l with
  | nil => rfl
  | cons a t ih => simp [ih]

/-- C5 (amended): a basic-syntax message built from a well-formed tuple
parses back to exactly that tuple.  Well-formed means: the language token is
a single line with stable trim; each argument is a single line with nonblank
trim and no fence marker; code and stdin contain no blank line, no carriage
return, and no fence marker. -/
theorem c5_roundtrip :
    ∀ (L : Str) (args : List Str) (code stdin : Str),
      (∀ c ∈ L, isNlCr c = false) → jsTrim L = L →
      (∀ a ∈ args, jsTrim a ≠ [] ∧ (∀ c ∈ a, isNlCr c = false) ∧
        occursIn tb a = false) →
      noBlankLines code → '\r' ∉ code → occursIn tb code = false →
      noBlankLines stdin → '\r' ∉ stdin → occursIn tb stdin = false →
      parseRunCommand (buildBasicMessage L args code stdin) =
        some { language := L, args := args, code := code, stdin := stdin } := by
  intro L args code stdin hL htrim hargs hcodeNB hcodeCR hcodeTB
    hstdinNB hstdinCR hstdinTB
  have htbchars : ∀ c ∈ tb, isNlCr c = false := by decide
  have htbnl : ∀ c ∈ tb, ¬(c = '\n') := by decide
  have htbne : tb ≠ [] := tb_ne_nil
  have hrunchars : ∀ c ∈ ("/run ".toList : Str), isNlCr c = false := by decide
  have hfirstL : jsLines (("/run ".toList) ++ L) = [("/run ".toList) ++ L] := by
    apply jsLines_clean
    · intro c hc
      rcases List.mem_append.mp hc with h | h
      · exact hrunchars c h
      · exact hL c h
    · simp
  have hargsL : ∀ a ∈ args, jsLines a = [a] := by
    intro a ha
    obtain ⟨ht, hch, _⟩ := hargs a ha
    apply jsLines_clean a hch
    intro h0
    rw [h0] at ht
    exact ht rfl
  have htbL : jsLines tb = [tb] := jsLines_clean tb htbchars htbne
  have hclrec : joinNl (jsLines code) = code := joinNl_jsLines code hcodeCR hcodeNB
  have hslrec : joinNl (jsLines stdin) = stdin :=
    joinNl_jsLines stdin hstdinCR hstdinNB
  have hmapargs : args.map jsLines = args.map (fun a => [a]) :=
    List.map_congr_left hargsL
  have hjsmsg : jsLines (buildBasicMessage L args code stdin) =
      (("/run ".toList) ++ L) ::
        (args ++ [tb] ++ jsLines code ++ [tb] ++ jsLines stdin) := by
    unfold buildBasicMessage
    rw [jsLines_joinNl]
    by_cases hs0 : stdin = []
    · rw [if_pos hs0, hs0]
      simp only [List.map_cons, List.map_append, List.map_nil, List.flatten_cons,
        List.flatten_append, List.flatten_nil, hmapargs, htbL,
        flatten_map_singleton, jsLines_nil, hfirstL, List.append_nil,
        List.nil_append]
      simp [List.append_assoc]
    · rw [if_neg hs0]
      simp only [List.map_cons, List.map_append, List.map_nil, List.flatten_cons,
        List.flatten_append, List.flatten_nil, hmapargs, htbL,
        flatten_map_singleton, jsLines_nil, hfirstL, List.append_nil,
        List.nil_append]
      simp [List.append_assoc]
  have hoccA : occursIn tb (joinNlDot args) = false := by
    unfold joinNlDot
    by_cases h0 : args = []
    · rw [if_pos h0]
      exact occursIn_nil tb htbne
    · rw [if_neg h0]
      rw [show (joinNl args ++ ['\n'] : Str) = joinNl args ++ '\n' :: [] from rfl,
        occursIn_append_sep tb htbnl,
        occursIn_joinNl tb htbne htbnl args (fun a ha => (hargs a ha).2.2),
        occursIn_nil tb htbne]
      rfl
  have hlastA : (joinNlDot args).getLast? ≠ some bq := by
    unfold joinNlDot
    by_cases h0 : args = []
    · rw [if_pos h0]
      simp
    · rw [if_neg h0, List.getLast?_concat]
      intro h
      injection h with h'
      exact absurd h' (by decide)
  have hoccM : occursIn tb ('\n' :: joinNlDot (jsLines code)) = false := by
    rw [show ('\n' :: joinNlDot (jsLines code) : Str) =
      [] ++ '\n' :: joinNlDot (jsLines code) from rfl,
      occursIn_append_sep tb htbnl, occursIn_nil tb htbne, Bool.false_or]
    unfold joinNlDot
    by_cases h0 : jsLines code = []
    · rw [if_pos h0]
      exact occursIn_nil tb htbne
    · rw [if_neg h0, hclrec]
      rw [show (code ++ ['\n'] : Str) = code ++ '\n' :: [] from rfl,
        occursIn_append_sep tb htbnl, hcodeTB, occursIn_nil tb htbne]
      rfl
  have hlastM : ('\n' :: joinNlDot (jsLines code)).getLast? ≠ some bq := by
    unfold joinNlDot
    by_cases h0 : jsLines code = []
    · rw [if_pos h0]
      decide
    · rw [if_neg h0]
      rw [show ('\n' :: (joinNl (jsLines code) ++ ['\n']) : Str) =
        ('\n' :: joinNl (jsLines code)) ++ ['\n'] from rfl, List.getLast?_concat]
      intro h
      injection h with h'
      exact absurd h' (by decide)
  obtain ⟨Ct, hCt, hCtstdin⟩ : ∃ Ct : Str,
      joinNl ([tb] ++ jsLines stdin) = tb ++ Ct ∧ stripLeadNl Ct = stdin := by
    by_cases hsl0 : jsLines stdin = []
    · refine ⟨[], ?_, ?_⟩
      · rw [hsl0, List.append_nil]
        rfl
      · rw [← hslrec, hsl0]
        rfl
    · obtain ⟨s0, sl', hsl⟩ : ∃ s0 sl', jsLines stdin = s0 :: sl' := by
        cases h : jsLines stdin with
        | nil => exact absurd h hsl0
        | cons s0 sl' => exact ⟨s0, sl', rfl⟩
      refine ⟨'\n' :: joinNl (jsLines stdin), ?_, ?_⟩
      · rw [hsl]
        rw [show ([tb] ++ (s0 :: sl') : List Str) = tb :: s0 :: sl' from rfl,
          joinNl_cons_cons, ← hsl]
      · rw [stripLeadNl_sep, hslrec]
  have e2 : joinNl (args ++ ([tb] ++ (jsLines code ++ ([tb] ++ jsLines stdin)))) =
      joinNlDot args ++ joinNl ([tb] ++ (jsLines code ++ ([tb] ++ jsLines stdin))) :=
    joinNl_append _ (by simp) args
  have e3 : joinNl ([tb] ++ (jsLines code ++ ([tb] ++ jsLines stdin))) =
      tb ++ '\n' :: joinNl (jsLines code ++ ([tb] ++ jsLines stdin)) := by
    obtain ⟨z, zs, hz⟩ : ∃ z zs,
        jsLines code ++ ([tb] ++ jsLines stdin) = z :: zs := by
      cases hcl : jsLines code with
      | nil => exact ⟨tb, jsLines stdin, rfl⟩
      | cons z zs => exact ⟨z, zs ++ ([tb] ++ jsLines stdin), rfl⟩
    rw [show ([tb] ++ (jsLines code ++ ([tb] ++ jsLines stdin)) : List Str) =
      tb :: (jsLines code ++ ([tb] ++ jsLines stdin)) from rfl]
    rw [hz, joinNl_cons_cons, ← hz]
  have e4 : joinNl (jsLines code ++ ([tb] ++ jsLines stdin)) =
      joinNlDot (jsLines code) ++ joinNl ([tb] ++ jsLines stdin) :=
    joinNl_append _ (by simp) (jsLines code)
  have hbodyEq : joinNl (args ++ [tb] ++ jsLines code ++ [tb] ++ jsLines stdin) =
      joinNlDot args ++ tb ++ (('\n' :: joinNlDot (jsLines code)) ++ tb ++ Ct) := by
    rw [show (args ++ [tb] ++ jsLines code ++ [tb] ++ jsLines stdin : List Str) =
      args ++ ([tb] ++ (jsLines code ++ ([tb] ++ jsLines stdin))) from by
        simp [List.append_assoc]]
    rw [e2, e3, e4, hCt]
    simp [List.append_assoc]
  have h2b : breakTicks
      (joinNl (args ++ [tb] ++ jsLines code ++ [tb] ++ jsLines stdin)) =
      some (joinNlDot args, ('\n' :: joinNlDot (jsLines code)) ++ tb ++ Ct) := by
    rw [hbodyEq]
    exact breakSep_exact _ _ hoccA hlastA
  have h3b : breakTicks (('\n' :: joinNlDot (jsLines code)) ++ tb ++ Ct) =
      some ('\n' :: joinNlDot (jsLines code), Ct) :=
    breakSep_exact Ct _ hoccM hlastM
  have hmain := parseRunCommand_basic (buildBasicMessage L args code stdin)
    (("/run ".toList) ++ L)
    (args ++ [tb] ++ jsLines code ++ [tb] ++ jsLines stdin)
    (joinNlDot args) (('\n' :: joinNlDot (jsLines code)) ++ tb ++ Ct)
    ('\n' :: joinNlDot (jsLines code)) Ct hjsmsg h2b h3b
  have hlang : jsTrim (replaceRun (("/run ".toList) ++ L)) = L := by
    rw [show (("/run ".toList) ++ L : Str) = ("/run".toList) ++ (' ' :: L) from rfl]
    unfold replaceRun
    rw [breakSep_self_append ("/run".toList) (' ' :: L) (by decide)]
    dsimp only
    rw [List.nil_append]
    unfold jsTrim
    rw [show (' ' :: L).dropWhile isWsChar = L.dropWhile isWsChar from by
      rw [List.dropWhile_cons, if_pos (by decide : (isWsChar ' ') = true)]]
    exact htrim
  have hargsExtract :
      (splitNl (joinNlDot args)).filter (fun l => jsTrim l ≠ []) = args := by
    unfold joinNlDot
    by_cases h0 : args = []
    · rw [if_pos h0, h0]
      rfl
    · rw [if_neg h0]
      have hchars : ∀ l ∈ args, '\n' ∉ l := fun a ha hm =>
        absurd ((hargs a ha).2.1 '\n' hm) (by decide)
      rw [show (joinNl args ++ ['\n'] : Str) = joinNl args ++ '\n' :: [] from rfl,
        splitNl_append_sep, splitNl_joinNl args hchars h0, List.filter_append,
        List.filter_eq_self.mpr (fun a ha => by simpa using (hargs a ha).1)]
      rw [show (splitNl ([] : Str)).filter (fun l => jsTrim l ≠ []) = [] from rfl,
        List.append_nil]
  have hcodeExtract :
      stripTrailNl (stripLeadNl ('\n' :: joinNlDot (jsLines code))) = code := by
    unfold joinNlDot
    by_cases h0 : jsLines code = []
    · rw [if_pos h0]
      rw [show code = [] from by rw [← hclrec, h0]; rfl]
      rfl
    · rw [if_neg h0, hclrec, stripLeadNl_sep, stripTrailNl_newline]
  rw [hmain, hlang, hargsExtract, hcodeExtract, hCtstdin]

/-- Witness for C5 at a concrete well-formed tuple with multi-line code and
stdin containing a space. -/
theorem c5_witness :
    parseRunCommand (buildBasicMessage ("py".toList) [("a1".toList)]
      ("co\nde".toList) ("s in".toList)) =
      some { language := ("py".toList), args := [("a1".toList)]
             code := ("co\nde".toList), stdin := ("s in".toList) } :=
  c5_roundtrip ("py".toList) [("a1".toList)] ("co\nde".toList) ("s in".toList)
    (by decide) (by decide) (by decide) (by decide) (by decide) (by decide)
    (by decide) (by decide) (by decide)

/-- C5 counterexample: the tuple `("x ", [], "y", "")` has no blank line in
any component and no fence marker in code or stdin, yet the round trip does
not reproduce it — the parser trims the language token, so `"x "` comes back
as `"x"`. -/
theorem c5_counterexample :
    noBlankLines ("x ".toList) ∧ noBlankLines ("y".toList) ∧
    noBlankLines ([] : Str) ∧ occursIn tb ("y".toList) = false ∧
    occursIn tb ([] : Str) = false ∧
    parseRunCommand (buildBasicMessage ("x ".toList) [] ("y".toList) []) ≠
      some { language := ("x ".toList), args := [], code := ("y".toList)
             stdin := [] } := by
  refine ⟨?_, ?_, ?_, ?_, ?_, ?_⟩ <;> decide
